import Mathlib

/-!
Verification of the path-normalization core of `xspf_to_m3u.py`.

The definitions below are a shallow embedding of the Python source:
strings are Lean `String`s (lists of characters), Python integers are
`Int`/`Nat`, Python `//` on integers is `Int.fdiv` (floor division),
fallible parsing returns `Option`.
-/

set_option autoImplicit false

namespace XspfToM3u

/-! ### Splitting a path on slashes (Python `path.split("/")`) -/

/-- Core of splitting a character list at every slash: returns the first
piece and the list of the remaining pieces.  Mirrors Python `str.split("/")`,
which keeps empty pieces. -/
def splitSlashCore : List Char → List Char × List (List Char)
  | [] => ([], [])
  | c :: cs =>
    let r := splitSlashCore cs
    if c = '/' then ([], r.1 :: r.2) else (c :: r.1, r.2)

/-- All pieces of a character list split at slashes (Python `str.split("/")`). -/
def splitSlash (cs : List Char) : List (List Char) :=
  (splitSlashCore cs).1 :: (splitSlashCore cs).2

/-- Line 36 of the source:
`parts = [p for p in path.split("/") if p not in ("", ".")]`. -/
def splitParts (path : String) : List String :=
  ((splitSlash path.data).map String.mk).filter (fun p => !(p == "" || p == "."))

/-- Python `"/".join(ps)`. -/
def joinSlash : List String → String
  | [] => ""
  | [p] => p
  | p :: q :: rest => p ++ "/" ++ joinSlash (q :: rest)

/-! ### The anchor resolver `strip_to_rel` (source lines 29-49) -/

/-- ASCII lowercase of one character (`str.lower`, restricted to the ASCII
range exercised here). -/
def lowerChar (c : Char) : Char :=
  if 'A' ≤ c && c ≤ 'Z' then Char.ofNat (c.toNat + 32) else c

/-- Python `s.lower()`. -/
def lowerStr (s : String) : String :=
  String.mk (s.data.map lowerChar)

/-- Line 39 of the source: `part.lower() in lower_anchors`, where
`lower_anchors = {a.lower() for a in anchors}` (set membership). -/
def anchorMatch (part : String) (anchors : List String) : Bool :=
  anchors.any (fun a => lowerStr part == lowerStr a)

/-- The scan of lines 38-39: index of the first component matching an anchor. -/
def firstMatchIdx (anchors : List String) : List String → Option Nat
  | [] => none
  | p :: ps =>
    if anchorMatch p anchors then some 0
    else (firstMatchIdx anchors ps).map (· + 1)

/-- Lines 42-49 of the source: the no-anchor fallback.  Drops a
`home/<user>` or `Users/<user>` prefix (exact-case check on the first
component) when more than two components exist, then keeps the last
three / two / one components. -/
def homeFallback (parts : List String) : String :=
  let parts2 :=
    if 2 < parts.length && (parts.head? == some "home" || parts.head? == some "Users")
    then parts.drop 2 else parts
  if 3 ≤ parts2.length then joinSlash (parts2.drop (parts2.length - 3))
  else if parts2.length = 2 then joinSlash parts2
  else (parts2.getLast?).getD ""

/-- Lines 38-49 of the source, on the already-split component list. -/
def stripCore (anchors : List String) (parts : List String) : String :=
  match firstMatchIdx anchors parts with
  | some i =>
    let rest := parts.drop (i + 1)
    if rest = [] then (parts.getLast?).getD "" else joinSlash rest
  | none => homeFallback parts

/-- `strip_to_rel(path, anchors)` (source lines 29-49). -/
def strip_to_rel (path : String) (anchors : List String) : String :=
  stripCore anchors (splitParts path)

/-! ### `display_title` and `ms_to_seconds` (source lines 51-63) -/

/-- `Path(p).name` of POSIX pathlib: the last component after discarding
empty and `"."` components. -/
def pathName (p : String) : String :=
  ((splitParts p).getLast?).getD ""

/-- `display_title(creator, title, path_rel)` (source lines 51-56). -/
def display_title (creator title path_rel : String) : String :=
  if creator != "" && title != "" then creator ++ " - " ++ title
  else if title != "" then title
  else pathName path_rel

def isDigitChar (c : Char) : Bool := '0' ≤ c && c ≤ '9'

/-- Tail of a Python integer-literal digit run: digits with single
underscores allowed between digits. -/
def digitRunTail : List Char → Bool
  | [] => true
  | '_' :: c :: rest => isDigitChar c && digitRunTail rest
  | '_' :: [] => false
  | c :: rest => isDigitChar c && digitRunTail rest

/-- A valid Python integer-literal digit run (nonempty, starts with a digit,
underscores only between digits). -/
def digitRunOk : List Char → Bool
  | [] => false
  | c :: rest => isDigitChar c && digitRunTail rest

/-- Numeric value of a digit run, skipping underscores. -/
def digitsVal (cs : List Char) : Nat :=
  cs.foldl (fun acc c => if isDigitChar c then acc * 10 + (c.toNat - '0'.toNat) else acc) 0

/-- Strip leading and trailing whitespace from a character list. -/
def stripWs (cs : List Char) : List Char :=
  ((cs.dropWhile Char.isWhitespace).reverse.dropWhile Char.isWhitespace).reverse

/-- Python `int(s)` on a string: optional whitespace, optional sign, digit
run; `none` when the call would raise `ValueError`. -/
def pyParseInt? (s : String) : Option Int :=
  match stripWs s.data with
  | '+' :: rest => if digitRunOk rest then some (Int.ofNat (digitsVal rest)) else none
  | '-' :: rest => if digitRunOk rest then some (-(Int.ofNat (digitsVal rest))) else none
  | rest => if digitRunOk rest then some (Int.ofNat (digitsVal rest)) else none

/-- `ms_to_seconds(ms_str)` (source lines 58-63): `int((int(ms_str) + 500) // 1000)`
with `-1` on parse failure.  Python `//` is floor division, hence `Int.fdiv`. -/
def ms_to_seconds (ms_str : String) : Int :=
  match pyParseInt? ms_str with
  | some ms => Int.fdiv (ms + 500) 1000
  | none => -1

/-! ### The URI decoder `uri_to_path` (source lines 20-27)

`uri_to_path` calls `urlparse(uri).path` and `unquote` from `urllib.parse`
when the location contains `"://"`.  Both library functions are embedded
below, restricted to the behaviour the source relies on (the `ValueError`
raised by `urlsplit` on unbalanced IPv6 brackets in the authority is not
modelled). -/

/-- Split a character list at the first occurrence of `sep`:
the part before it and, when `sep` occurs, the part after it. -/
def breakAtChar (sep : Char) : List Char → List Char × Option (List Char)
  | [] => ([], none)
  | c :: cs =>
    if c = sep then ([], some cs)
    else
      let r := breakAtChar sep cs
      (c :: r.1, r.2)

def isAsciiAlpha (c : Char) : Bool :=
  ('a' ≤ c && c ≤ 'z') || ('A' ≤ c && c ≤ 'Z')

/-- Characters allowed in a URL scheme (`urllib.parse.scheme_chars`). -/
def isSchemeChar (c : Char) : Bool :=
  isAsciiAlpha c || isDigitChar c || c = '+' || c = '-' || c = '.'

/-- The scheme test of `urlsplit`: the part before the first colon is a
scheme when it is nonempty, starts with an ASCII letter and consists of
scheme characters. -/
def schemeOk (before : List Char) : Bool :=
  match before with
  | [] => false
  | c :: _ => isAsciiAlpha c && before.all isSchemeChar

/-- `_splitnetloc`: after a leading `//`, the authority extends to the first
`/`, `?` or `#`; this drops it together with the `//`. -/
def dropNetloc (cs : List Char) : List Char :=
  cs.dropWhile (fun c => !(c = '/' || c = '?' || c = '#'))

/-- Split a character list at the last slash, when one exists. -/
def lastSlashSplit (cs : List Char) : Option (List Char × List Char) :=
  match breakAtChar '/' cs.reverse with
  | (revAfter, some revBefore) => some (revBefore.reverse, revAfter.reverse)
  | (_, none) => none

/-- `_splitparams` of `urlparse`: cut the path at the first `;` at or after
the last `/` (or the first `;` overall when the path has no slash). -/
def splitParams (cs : List Char) : List Char :=
  if cs.contains ';' then
    match lastSlashSplit cs with
    | some (before, after) =>
      match breakAtChar ';' after with
      | (a, some _) => before ++ '/' :: a
      | (_, none) => cs
    | none => (breakAtChar ';' cs).1
  else cs

/-- `urlparse(uri).path`: strip the scheme, the `//`-authority, the
fragment, the query and the params, in the order `urlsplit`/`urlparse`
apply them. -/
def urlparsePath (uri : String) : String :=
  let cs := uri.data
  let afterScheme :=
    match breakAtChar ':' cs with
    | (before, some rest) => if schemeOk before then rest else cs
    | (_, none) => cs
  let afterNetloc :=
    match afterScheme with
    | '/' :: '/' :: rest => dropNetloc rest
    | other => other
  let afterFrag := (breakAtChar '#' afterNetloc).1
  let afterQuery := (breakAtChar '?' afterFrag).1
  String.mk (splitParams afterQuery)

/-- The Unicode replacement character, produced by `errors="replace"`. -/
def replChar : Char := Char.ofNat 0xFFFD

def isContByte (b : Nat) : Bool := 0x80 ≤ b && b ≤ 0xBF

/-- UTF-8 decoding of a byte list with replacement on malformed input
(`bytes.decode("utf-8", "replace")`; on truncated multi-byte sequences the
replacement-character count may differ from CPython, which no claim
exercises).  The fuel argument is the list length. -/
def utf8DecodeAux : Nat → List Nat → List Char
  | _, [] => []
  | 0, _ => []
  | Nat.succ fuel, b :: rest =>
    if b < 0x80 then Char.ofNat b :: utf8DecodeAux fuel rest
    else if 0xC2 ≤ b && b ≤ 0xDF then
      match rest with
      | b2 :: rest2 =>
        if isContByte b2 then
          Char.ofNat ((b - 0xC0) * 0x40 + (b2 - 0x80)) :: utf8DecodeAux fuel rest2
        else replChar :: utf8DecodeAux fuel rest
      | [] => [replChar]
    else if 0xE0 ≤ b && b ≤ 0xEF then
      match rest with
      | b2 :: b3 :: rest3 =>
        if (if b = 0xE0 then 0xA0 ≤ b2 && b2 ≤ 0xBF
            else if b = 0xED then 0x80 ≤ b2 && b2 ≤ 0x9F
            else isContByte b2) && isContByte b3 then
          Char.ofNat ((b - 0xE0) * 0x1000 + (b2 - 0x80) * 0x40 + (b3 - 0x80)) :: utf8DecodeAux fuel rest3
        else replChar :: utf8DecodeAux fuel rest
      | _ => replChar :: utf8DecodeAux fuel rest
    else if 0xF0 ≤ b && b ≤ 0xF4 then
      match rest with
      | b2 :: b3 :: b4 :: rest4 =>
        if (if b = 0xF0 then 0x90 ≤ b2 && b2 ≤ 0xBF
            else if b = 0xF4 then 0x80 ≤ b2 && b2 ≤ 0x8F
            else isContByte b2) && isContByte b3 && isContByte b4 then
          Char.ofNat ((b - 0xF0) * 0x40000 + (b2 - 0x80) * 0x1000 + (b3 - 0x80) * 0x40 + (b4 - 0x80))
            :: utf8DecodeAux fuel rest4
        else replChar :: utf8DecodeAux fuel rest
      | _ => replChar :: utf8DecodeAux fuel rest
    else replChar :: utf8DecodeAux fuel rest

def utf8Decode (bs : List Nat) : List Char := utf8DecodeAux bs.length bs

def isHexDigitChar (c : Char) : Bool :=
  isDigitChar c || ('a' ≤ c && c ≤ 'f') || ('A' ≤ c && c ≤ 'F')

def hexVal (c : Char) : Nat :=
  if isDigitChar c then c.toNat - '0'.toNat
  else if 'a' ≤ c && c ≤ 'f' then c.toNat - 'a'.toNat + 10
  else if 'A' ≤ c && c ≤ 'F' then c.toNat - 'A'.toNat + 10
  else 0

/-- Scanner of `urllib.parse.unquote`: ASCII characters and `%XX` escapes
accumulate as bytes (`buf`, reversed) that are UTF-8-decoded together; a
non-ASCII character flushes the buffer and passes through.  The fuel
argument is the list length. -/
def unquoteAux : Nat → List Char → List Nat → List Char
  | _, [], buf => utf8Decode buf.reverse
  | Nat.succ fuel, '%' :: c1 :: c2 :: rest, buf =>
    if isHexDigitChar c1 && isHexDigitChar c2 then
      unquoteAux fuel rest ((hexVal c1 * 16 + hexVal c2) :: buf)
    else unquoteAux fuel (c1 :: c2 :: rest) ('%'.toNat :: buf)
  | Nat.succ fuel, c :: rest, buf =>
    if c.toNat < 128 then unquoteAux fuel rest (c.toNat :: buf)
    else utf8Decode buf.reverse ++ c :: unquoteAux fuel rest []
  | 0, cs, buf => utf8Decode buf.reverse ++ cs

/-- `urllib.parse.unquote(s)` with the default UTF-8/replace decoding. -/
def unquote (s : String) : String :=
  String.mk (unquoteAux s.data.length s.data [])

/-- Does `needle` occur as a contiguous substring (Python `needle in hay`)? -/
def hasSubstr (needle : List Char) : List Char → Bool
  | [] => needle.isPrefixOf ([] : List Char)
  | c :: rest => needle.isPrefixOf (c :: rest) || hasSubstr needle rest

/-- `uri_to_path(uri)` (source lines 20-27): decode a `file://`-style URI
when a scheme separator is present, then replace every backslash with a
forward slash. -/
def uri_to_path (uri : String) : String :=
  let raw := if hasSubstr ("://".data) uri.data then unquote (urlparsePath uri) else uri
  String.mk (raw.data.map (fun c => if c = '\\' then '/' else c))

/-! ### `join_posix` and the output-line formatter (source lines 86-166) -/

/-- Python `s.rstrip("/")`. -/
def rstripSlashes (s : String) : String :=
  String.mk ((s.data.reverse.dropWhile (· = '/')).reverse)

/-- Python `s.lstrip("/")`. -/
def lstripSlashes (s : String) : String :=
  String.mk (s.data.dropWhile (· = '/'))

/-- `join_posix(base, rel)` (source lines 86-88). -/
def join_posix (base rel : String) : String :=
  rstripSlashes base ++ "/" ++ lstripSlashes rel

/-- One track record as built by `parse_tracks` (source lines 65-84). -/
structure Track where
  path : String
  title : String
  creator : String
  duration_s : Option Int
  deriving Repr, DecidableEq

/-- The record construction of `parse_tracks` (source lines 74-83) from the
already-extracted location, title, creator and duration strings. -/
def mkTrack (loc title creator duration_ms : String) : Track :=
  { path := uri_to_path loc
    title := title
    creator := creator
    duration_s := if duration_ms != "" then some (ms_to_seconds duration_ms) else none }

/-- The run configuration consumed by `main`: the repeatable
`--strip-after` anchors, the `--no-extm3u` flag and the optional `--gonic`
base path. -/
structure Config where
  anchors : List String
  no_extm3u : Bool
  gonic_base : Option String
  deriving Repr, DecidableEq

/-- `gonic_mode = bool(args.gonic_base)` (source line 136): an absent or
empty base string is falsy. -/
def gonicMode (cfg : Config) : Bool :=
  cfg.gonic_base.getD "" != ""

/-- Extended output is active when neither `--no-extm3u` nor Gonic mode is
(source lines 137 and 151). -/
def extendedMode (cfg : Config) : Bool :=
  !cfg.no_extm3u && !gonicMode cfg

/-- `strip_to_rel(t["path"], anchors=args.anchors)` (source line 142). -/
def relOf (cfg : Config) (t : Track) : String :=
  strip_to_rel t.path cfg.anchors

/-- The final output path of a track (source line 146). -/
def outOf (cfg : Config) (t : Track) : String :=
  if gonicMode cfg then join_posix (cfg.gonic_base.getD "") (relOf cfg t) else relOf cfg t

/-- `dur if isinstance(dur, int) and dur >= 0 else -1` (source line 153). -/
def durVal (dur : Option Int) : Int :=
  match dur with
  | some d => if 0 ≤ d then d else -1
  | none => -1

/-- The `#EXTINF` line of a track (source lines 152-155). -/
def extinfLine (cfg : Config) (t : Track) : String :=
  "#EXTINF:" ++ toString (durVal t.duration_s) ++ "," ++ display_title t.creator t.title (relOf cfg t)

/-- The per-track loop of `main` (source lines 140-156): skip tracks with
an empty relative path, deduplicate on the final output path, and emit an
`#EXTINF` line before each path line in extended mode. -/
def lineLoop (cfg : Config) : List Track → List String → List String
  | [], _ => []
  | t :: ts, seen =>
    if relOf cfg t = "" then lineLoop cfg ts seen
    else if seen.contains (outOf cfg t) then lineLoop cfg ts seen
    else
      (if extendedMode cfg then [extinfLine cfg t] else [])
        ++ outOf cfg t :: lineLoop cfg ts (outOf cfg t :: seen)

/-- The track-line construction of `main` (source lines 135-156): the
`#EXTM3U` header in extended mode followed by the per-track loop.  (The
Gonic header prepend of lines 158-166 and the file write are outside the
claims' scope.) -/
def outputLines (tracks : List Track) (cfg : Config) : List String :=
  (if extendedMode cfg then ["#EXTM3U"] else []) ++ lineLoop cfg tracks []

/-! ### Observation functions used by the dedup claims -/

/-- The candidate final output paths of the tracks whose relative path is
nonempty, in source order (no deduplication). -/
def finalPaths (cfg : Config) : List Track → List String
  | [] => []
  | t :: ts =>
    if relOf cfg t = "" then finalPaths cfg ts
    else outOf cfg t :: finalPaths cfg ts

/-- Keep-first deduplication relative to an already-seen list. -/
def dedupFirstAux (seen : List String) : List String → List String
  | [] => []
  | x :: xs =>
    if seen.contains x then dedupFirstAux seen xs
    else x :: dedupFirstAux (x :: seen) xs

/-- Keep-first deduplication: the first occurrence of each string survives
in place, later duplicates are dropped. -/
def dedupFirst (l : List String) : List String := dedupFirstAux [] l

/-- The path lines emitted by `lineLoop`, in order. -/
def loopPaths (cfg : Config) : List Track → List String → List String
  | [], _ => []
  | t :: ts, seen =>
    if relOf cfg t = "" then loopPaths cfg ts seen
    else if seen.contains (outOf cfg t) then loopPaths cfg ts seen
    else outOf cfg t :: loopPaths cfg ts (outOf cfg t :: seen)

/-- The tracks that survive both skip tests of the loop, in order. -/
def survivors (cfg : Config) : List Track → List String → List Track
  | [], _ => []
  | t :: ts, seen =>
    if relOf cfg t = "" then survivors cfg ts seen
    else if seen.contains (outOf cfg t) then survivors cfg ts seen
    else t :: survivors cfg ts (outOf cfg t :: seen)

/-- The block of lines one surviving track contributes. -/
def trackBlock (cfg : Config) (t : Track) : List String :=
  (if extendedMode cfg then [extinfLine cfg t] else []) ++ [outOf cfg t]

/-- The no-anchor fallback as the specification words it: optionally drop
the first two components under the `home`/`Users` heuristic, then return
the last three components joined, both components, the single component,
or the empty string.  Written from the spec, to be compared with
`homeFallback`, which is translated from the source. -/
def resolverFallbackSpec (parts : List String) : String :=
  let remaining :=
    if 2 < parts.length ∧ (parts.head? = some "home" ∨ parts.head? = some "Users")
    then parts.drop 2 else parts
  if 3 ≤ remaining.length then joinSlash ((remaining.reverse.take 3).reverse)
  else if remaining.length = 2 then joinSlash remaining
  else
    match remaining with
    | [x] => x
    | _ => ""

end XspfToM3u

namespace XspfToM3u

/-! ### Sanity examples (concrete evaluations of the embedding) -/

example : splitParts "/home/alice/Music/Artist/Song.mp3"
    = ["home", "alice", "Music", "Artist", "Song.mp3"] := by decide

example : strip_to_rel "/home/alice/Music/Artist/Song.mp3" ["Music"] = "Artist/Song.mp3" := by decide

example : strip_to_rel "a/Music" ["Music"] = "Music" := by decide

example : strip_to_rel "a/b/c/d" ["Music"] = "b/c/d" := by decide

example : strip_to_rel "home/u/a/b" [] = "a/b" := by decide

example : strip_to_rel "HOME/u/a/b" [] = "u/a/b" := by decide

example : ms_to_seconds "2500" = 3 := by decide

example : ms_to_seconds "2499" = 2 := by decide

example : ms_to_seconds "x" = -1 := by decide

example : display_title "" "" "Artist/Song.mp3" = "Song.mp3" := by decide

example : urlparsePath "file:///home/alice/Music/Artist/Song.mp3"
    = "/home/alice/Music/Artist/Song.mp3" := by decide

example : uri_to_path "file:///home/alice/Music/Artist/Song.mp3"
    = "/home/alice/Music/Artist/Song.mp3" := by decide

example : uri_to_path "http://h/a%20b" = "/a b" := by decide

example : uri_to_path "C:\\dir\\file%20name.mp3" = "C:/dir/file%20name.mp3" := by decide

example : join_posix "/mnt/g/Music/" "b/c.mp3" = "/mnt/g/Music/b/c.mp3" := by decide

example :
    outputLines [mkTrack "file:///home/alice/Music/Artist/Song.mp3" "" "" ""]
      { anchors := ["Music"], no_extm3u := false, gonic_base := none }
    = ["#EXTM3U", "#EXTINF:-1,Song.mp3", "Artist/Song.mp3"] := by decide

/-! ### Lemmas about the anchor scan -/

theorem firstMatchIdx_eq_none_iff (anchors : List String) (l : List String) :
    firstMatchIdx anchors l = none ↔ ∀ p ∈ l, anchorMatch p anchors = false := by
  induction l with
  | nil => simp [firstMatchIdx]
  | cons p ps ih =>
    cases hm : anchorMatch p anchors with
    | true => simp [firstMatchIdx, hm]
    | false => simp [firstMatchIdx, hm, ih]

theorem firstMatchIdx_spec (anchors : List String) :
    ∀ (l : List String) (i : Nat), firstMatchIdx anchors l = some i →
      i < l.length
      ∧ (∃ p, l[i]? = some p ∧ anchorMatch p anchors = true)
      ∧ (∀ j q, j < i → l[j]? = some q → anchorMatch q anchors = false) := by
  intro l
  induction l with
  | nil => intro i h; simp [firstMatchIdx] at h
  | cons p ps ih =>
    intro i h
    cases hm : anchorMatch p anchors with
    | true =>
      rw [firstMatchIdx, hm, if_pos rfl] at h
      obtain rfl : i = 0 := by simpa using h.symm
      refine ⟨by simp, ⟨p, by simp, hm⟩, ?_⟩
      intro j q hj
      omega
    | false =>
      rw [firstMatchIdx, hm] at h
      simp only [Bool.false_eq_true, if_false, Option.map_eq_some'] at h
      obtain ⟨i', hi', rfl⟩ := h
      obtain ⟨hlt, ⟨q, hq, hmq⟩, hfirst⟩ := ih i' hi'
      refine ⟨by simpa using Nat.succ_lt_succ hlt, ⟨q, by simpa using hq, hmq⟩, ?_⟩
      intro j r hj hr
      cases j with
      | zero =>
        simp only [List.getElem?_cons_zero, Option.some_inj] at hr
        rw [hr] at hm
        exact hm
      | succ j' =>
        simp only [List.getElem?_cons_succ] at hr
        exact hfirst j' r (by omega) hr

theorem stripCore_anchor_eq (anchors parts : List String) (i : Nat)
    (hi : firstMatchIdx anchors parts = some i) :
    (parts.drop (i + 1) ≠ [] → stripCore anchors parts = joinSlash (parts.drop (i + 1)))
    ∧ (parts.drop (i + 1) = [] → parts[i]? = some (stripCore anchors parts)) := by
  obtain ⟨hlt, ⟨p, hp, hmp⟩, hfirst⟩ := firstMatchIdx_spec anchors parts i hi
  constructor
  · intro hne
    simp [stripCore, hi, hne]
  · intro he
    simp only [stripCore, hi, he, if_pos]
    have hlen : parts.length = i + 1 := by
      have hle : parts.length ≤ i + 1 := List.drop_eq_nil_iff.mp he
      omega
    have hgl : parts.getLast? = some p := by
      rw [List.getLast?_eq_getElem?, hlen]
      simpa using hp
    rw [hgl]
    simpa using hp

/-! ### C1: the anchor-cut behaviour of the resolver -/

/-- C1: on a path whose component list has its first anchor match at index
`i` (the left-to-right scan, with set-membership matching), the resolver
returns the slash-joined components strictly after index `i`; when the
matched component is the last one it returns that component itself. -/
theorem strip_to_rel_anchor_cut (path : String) (anchors : List String) (i : Nat)
    (hi : firstMatchIdx anchors (splitParts path) = some i) :
    (∃ p, (splitParts path)[i]? = some p ∧ anchorMatch p anchors = true)
    ∧ (∀ j q, j < i → (splitParts path)[j]? = some q → anchorMatch q anchors = false)
    ∧ ((splitParts path).drop (i + 1) ≠ [] →
        strip_to_rel path anchors = joinSlash ((splitParts path).drop (i + 1)))
    ∧ ((splitParts path).drop (i + 1) = [] →
        (splitParts path)[i]? = some (strip_to_rel path anchors)) := by
  obtain ⟨hlt, ⟨p, hp, hmp⟩, hfirst⟩ := firstMatchIdx_spec anchors (splitParts path) i hi
  exact ⟨⟨p, hp, hmp⟩, hfirst,
    (stripCore_anchor_eq anchors (splitParts path) i hi).1,
    (stripCore_anchor_eq anchors (splitParts path) i hi).2⟩

/-- C1 witness: a concrete anchor cut. -/
theorem strip_to_rel_anchor_cut_witness :
    strip_to_rel "a/Music/b/c" ["Music"] = joinSlash ((splitParts "a/Music/b/c").drop 2)
    ∧ strip_to_rel "a/Music/b/c" ["Music"] = "b/c" :=
  ⟨(strip_to_rel_anchor_cut "a/Music/b/c" ["Music"] 1 (by decide)).2.2.1 (by decide), by decide⟩

/-! ### C2: the no-anchor fallback tiering -/

theorem lastThree_eq_drop (l : List String) :
    (l.reverse.take 3).reverse = l.drop (l.length - 3) := by
  rw [← List.rtake_eq_reverse_take_reverse]
  rfl

theorem tiering_eq (l : List String) :
    (if 3 ≤ l.length then joinSlash (l.drop (l.length - 3))
     else if l.length = 2 then joinSlash l
     else (l.getLast?).getD "")
    = (if 3 ≤ l.length then joinSlash ((l.reverse.take 3).reverse)
       else if l.length = 2 then joinSlash l
       else match l with | [x] => x | _ => "") := by
  rw [lastThree_eq_drop]
  match l with
  | [] => simp
  | [x] => simp
  | [x, y] => simp
  | x :: y :: z :: rest =>
    have h3 : 3 ≤ (x :: y :: z :: rest).length := by
      simp only [List.length_cons]
      omega
    rw [if_pos h3, if_pos h3]

/-- C2: when no component matches an anchor, the resolver behaves as the
spec words the fallback: optional exact-case `home`/`Users` prefix drop,
then the last-three / two / one / empty tiering. -/
theorem strip_to_rel_no_anchor (path : String) (anchors : List String)
    (h : ∀ p ∈ splitParts path, anchorMatch p anchors = false) :
    strip_to_rel path anchors = resolverFallbackSpec (splitParts path) := by
  have hnone := (firstMatchIdx_eq_none_iff anchors (splitParts path)).2 h
  simp only [strip_to_rel, stripCore, hnone]
  generalize splitParts path = parts
  simp only [homeFallback, resolverFallbackSpec]
  by_cases hc : 2 < parts.length ∧ (parts.head? = some "home" ∨ parts.head? = some "Users")
  · have hcb : (2 < parts.length && (parts.head? == some "home" || parts.head? == some "Users"))
        = true := by
      simp only [Bool.and_eq_true, Bool.or_eq_true, beq_iff_eq, decide_eq_true_eq]
      exact hc
    rw [if_pos hcb, if_pos hc]
    exact tiering_eq _
  · have hcb : ¬ ((2 < parts.length && (parts.head? == some "home" || parts.head? == some "Users"))
        = true) := by
      simp only [Bool.and_eq_true, Bool.or_eq_true, beq_iff_eq, decide_eq_true_eq]
      exact hc
    rw [if_neg hcb, if_neg hc]
    exact tiering_eq _

/-- C2 witness: components `a, b, c, d` with no matching anchor resolve to
the last three components `b/c/d`. -/
theorem strip_to_rel_no_anchor_witness :
    strip_to_rel "a/b/c/d" ["Music"] = resolverFallbackSpec (splitParts "a/b/c/d")
    ∧ strip_to_rel "a/b/c/d" ["Music"] = "b/c/d" :=
  ⟨strip_to_rel_no_anchor "a/b/c/d" ["Music"] (by decide), by decide⟩

/-! ### C3: what the output may contain when an anchor matches -/

/-- C3 counterexample: in `a/Music` with anchor `Music`, the matched
component is the last one and the resolver returns that very component, so
the output does contain the matched anchor component. -/
theorem strip_to_rel_contains_anchor :
    firstMatchIdx ["Music"] (splitParts "a/Music") = some 1
    ∧ (splitParts "a/Music")[1]? = some "Music"
    ∧ strip_to_rel "a/Music" ["Music"] = "Music" := by
  decide

/-- C3 amended: on an anchor match at first index `i`, the output is the
slash-join of a suffix of the components from the matched component on:
the components strictly after it when any exist, and exactly the matched
component itself (alone, with nothing before it) otherwise. -/
theorem strip_to_rel_anchor_suffix (path : String) (anchors : List String) (i : Nat)
    (hi : firstMatchIdx anchors (splitParts path) = some i) :
    ∃ rest : List String,
      strip_to_rel path anchors = joinSlash rest
      ∧ rest <:+ (splitParts path).drop i
      ∧ ((splitParts path).drop (i + 1) ≠ [] → rest = (splitParts path).drop (i + 1))
      ∧ ((splitParts path).drop (i + 1) = [] → rest = (splitParts path).drop i) := by
  obtain ⟨hlt, ⟨p, hp, hmp⟩, hfirst⟩ := firstMatchIdx_spec anchors (splitParts path) i hi
  have hdropcons : (splitParts path).drop i
      = (splitParts path)[i] :: (splitParts path).drop (i + 1) :=
    List.drop_eq_getElem_cons hlt
  by_cases he : (splitParts path).drop (i + 1) = []
  · refine ⟨(splitParts path).drop i, ?_, List.suffix_refl _, fun hne => absurd he hne, fun _ => rfl⟩
    rw [hdropcons, he]
    have hout := (stripCore_anchor_eq anchors (splitParts path) i hi).2 he
    rw [List.getElem?_eq_getElem hlt] at hout
    have : (splitParts path)[i] = strip_to_rel path anchors := by
      simpa using hout
    rw [← this]
    rfl
  · refine ⟨(splitParts path).drop (i + 1), ?_, ?_, fun _ => rfl, fun habs => absurd habs he⟩
    · exact (stripCore_anchor_eq anchors (splitParts path) i hi).1 he
    · rw [hdropcons]
      exact List.suffix_cons _ _

/-- C3 amended witness: a concrete anchor match inside the path. -/
theorem strip_to_rel_anchor_suffix_witness :
    ∃ rest : List String,
      strip_to_rel "x/Music/y" ["Music"] = joinSlash rest
      ∧ rest <:+ (splitParts "x/Music/y").drop 1
      ∧ ((splitParts "x/Music/y").drop 2 ≠ [] → rest = (splitParts "x/Music/y").drop 2)
      ∧ ((splitParts "x/Music/y").drop 2 = [] → rest = (splitParts "x/Music/y").drop 1) :=
  strip_to_rel_anchor_suffix "x/Music/y" ["Music"] 1 (by decide)

/-! ### C4: case-insensitive anchors, exact-case home heuristic -/

/-- C4: anchor matching is case-insensitive (a component matches exactly
when some anchor has the same lowercase form), while the home-prefix
heuristic only fires on the exact-case first components `home` and
`Users`: `HOME` and `users` do not trigger the two-component drop. -/
theorem anchor_case_insensitive_home_exact :
    (∀ (part : String) (anchors : List String),
        anchorMatch part anchors = true ↔ ∃ a ∈ anchors, lowerStr part = lowerStr a)
    ∧ strip_to_rel "x/MUSIC/y" ["music"] = "y"
    ∧ strip_to_rel "home/u/a/b" [] = "a/b"
    ∧ strip_to_rel "Users/u/a/b" [] = "a/b"
    ∧ strip_to_rel "HOME/u/a/b" [] = "u/a/b"
    ∧ strip_to_rel "users/u/a/b" [] = "u/a/b" := by
  refine ⟨?_, by decide, by decide, by decide, by decide, by decide⟩
  intro part anchors
  simp [anchorMatch, List.any_eq_true]

/-! ### C6: duration rounding and the unknown-duration sentinel -/

/-- C6: a parsed duration of `n` milliseconds becomes `(n + 500) // 1000`
seconds (floor division), so 2500 ms gives 3 s and 2499 ms gives 2 s; an
absent duration field (empty string, hence no stored duration) or a parse
failure makes the extended-info value the sentinel `-1`. -/
theorem ms_rounding_and_sentinel :
    ms_to_seconds "2500" = 3
    ∧ ms_to_seconds "2499" = 2
    ∧ (∀ (s : String) (n : Int), pyParseInt? s = some n →
        ms_to_seconds s = Int.fdiv (n + 500) 1000)
    ∧ (∀ s : String, pyParseInt? s = none → ms_to_seconds s = -1)
    ∧ (∀ loc title creator : String, durVal (mkTrack loc title creator "").duration_s = -1)
    ∧ (∀ s : String, pyParseInt? s = none → durVal (some (ms_to_seconds s)) = -1) := by
  refine ⟨by decide, by decide, ?_, ?_, ?_, ?_⟩
  · intro s n h
    simp [ms_to_seconds, h]
  · intro s h
    simp [ms_to_seconds, h]
  · intro loc title creator
    simp [mkTrack, durVal]
  · intro s h
    simp [ms_to_seconds, h, durVal]

/-- C6 witness: an unparseable duration string yields the sentinel. -/
theorem ms_sentinel_witness : ms_to_seconds "12a" = -1 :=
  ms_rounding_and_sentinel.2.2.2.1 "12a" (by decide)

/-! ### C7: joining the Gonic base with exactly one separator -/

theorem rstripSlashes_append_slash (s : String) :
    rstripSlashes (s ++ "/") = rstripSlashes s := by
  unfold rstripSlashes
  have h : (s ++ "/").data = s.data ++ ['/'] := by
    rw [String.data_append]
  rw [h]
  simp

theorem lstripSlashes_cons_slash (s : String) :
    lstripSlashes ("/" ++ s) = lstripSlashes s := by
  unfold lstripSlashes
  have h : ("/" ++ s).data = '/' :: s.data := rfl
  rw [h]
  simp

theorem rstripSlashes_no_slash (s : String) (h : s.data.getLast? ≠ some '/') :
    rstripSlashes s = s := by
  unfold rstripSlashes
  cases hrev : s.data.reverse with
  | nil =>
    have hd : s.data = [] := by
      have := congrArg List.reverse hrev
      simpa using this
    apply String.ext
    simp [hd]
  | cons c cs =>
    have hc : c ≠ '/' := by
      intro heq
      apply h
      rw [← List.head?_reverse, hrev, heq]
      rfl
    rw [List.dropWhile_cons_of_neg (by simpa using hc)]
    have hback : (c :: cs).reverse = s.data := by
      rw [← hrev, List.reverse_reverse]
    rw [hback]

theorem lstripSlashes_no_slash (s : String) (h : s.data.head? ≠ some '/') :
    lstripSlashes s = s := by
  unfold lstripSlashes
  cases hd : s.data with
  | nil =>
    apply String.ext
    simp [hd]
  | cons c cs =>
    have hc : c ≠ '/' := by
      intro heq
      apply h
      rw [hd, heq]
      rfl
    rw [List.dropWhile_cons_of_neg (by simpa using hc)]
    exact String.ext hd.symm

/-- C7: the Gonic join is invariant under extra trailing slashes on the
base and extra leading slashes on the relative path, uses exactly one
separating slash when neither side carries one, and gives the spec's
concrete result. -/
theorem join_posix_single_separator (base rel : String) (hb : base ≠ "") (hr : rel ≠ "") :
    join_posix (base ++ "/") rel = join_posix base rel
    ∧ join_posix base ("/" ++ rel) = join_posix base rel
    ∧ (base.data.getLast? ≠ some '/' → rel.data.head? ≠ some '/' →
        join_posix base rel = base ++ "/" ++ rel)
    ∧ join_posix "/mnt/g/Music/" "b/c.mp3" = "/mnt/g/Music/b/c.mp3" := by
  refine ⟨?_, ?_, ?_, by decide⟩
  · unfold join_posix
    rw [rstripSlashes_append_slash]
  · unfold join_posix
    rw [lstripSlashes_cons_slash]
  · intro h1 h2
    unfold join_posix
    rw [rstripSlashes_no_slash base h1, lstripSlashes_no_slash rel h2]

/-- C7 witness: the spec's Gonic example. -/
theorem join_posix_single_separator_witness :
    join_posix "/mnt/g/Music/" "b/c.mp3" = "/mnt/g/Music/b/c.mp3" :=
  (join_posix_single_separator "/mnt/g/Music/" "b/c.mp3" (by decide) (by decide)).2.2.2

/-! ### C10: the non-URI branch of the decoder -/

/-- C10: a location without a scheme separator is returned verbatim except
that backslashes become slashes; percent escapes survive untouched, while
a location containing a scheme separator is percent-decoded. -/
theorem uri_no_scheme_passthrough :
    (∀ uri : String, hasSubstr ("://".data) uri.data = false →
        uri_to_path uri = String.mk (uri.data.map (fun c => if c = '\\' then '/' else c)))
    ∧ uri_to_path "C:\\dir\\file%20name.mp3" = "C:/dir/file%20name.mp3"
    ∧ uri_to_path "http://h/a%20b" = "/a b" := by
  refine ⟨?_, by decide, by decide⟩
  intro uri h
  simp [uri_to_path, h]

/-- C10 witness: a bare path with a percent escape passes through. -/
theorem uri_no_scheme_witness :
    uri_to_path "a\\b%20c" = String.mk ("a\\b%20c".data.map (fun c => if c = '\\' then '/' else c)) :=
  uri_no_scheme_passthrough.1 "a\\b%20c" (by decide)

/-! ### C5: keep-first deduplication of output paths -/

theorem loopPaths_eq_dedup (cfg : Config) :
    ∀ (ts : List Track) (seen : List String),
      loopPaths cfg ts seen = dedupFirstAux seen (finalPaths cfg ts) := by
  intro ts
  induction ts with
  | nil => intro seen; rfl
  | cons t ts ih =>
    intro seen
    by_cases hrel : relOf cfg t = ""
    · simp [loopPaths, finalPaths, hrel, ih]
    · simp only [loopPaths, finalPaths, hrel, if_neg, dedupFirstAux]
      cases hs : seen.contains (outOf cfg t) with
      | true => simp [hs, ih]
      | false => simp [hs, ih]

theorem dedupFirstAux_not_contains :
    ∀ (l seen : List String) (x : String), x ∈ dedupFirstAux seen l → seen.contains x = false := by
  intro l
  induction l with
  | nil =>
    intro seen x hx
    simp [dedupFirstAux] at hx
  | cons y ys ih =>
    intro seen x hx
    simp only [dedupFirstAux] at hx
    cases hs : seen.contains y with
    | true =>
      rw [hs] at hx
      simp only [if_pos] at hx
      exact ih seen x hx
    | false =>
      rw [hs] at hx
      simp only [Bool.false_eq_true, if_false, List.mem_cons] at hx
      rcases hx with rfl | hx
      · exact hs
      · have hcons := ih (y :: seen) x hx
        simp only [List.contains_cons, Bool.or_eq_false_iff] at hcons
        exact hcons.2

theorem dedupFirstAux_nodup :
    ∀ (l seen : List String), (dedupFirstAux seen l).Nodup := by
  intro l
  induction l with
  | nil => intro seen; simp [dedupFirstAux]
  | cons y ys ih =>
    intro seen
    simp only [dedupFirstAux]
    cases hs : seen.contains y with
    | true => simp only [if_pos]; exact ih seen
    | false =>
      simp only [Bool.false_eq_true, if_false, List.nodup_cons]
      refine ⟨?_, ih (y :: seen)⟩
      intro hy
      have := dedupFirstAux_not_contains ys (y :: seen) y hy
      simp [List.contains_cons] at this

theorem lineLoop_blocks (cfg : Config) :
    ∀ (ts : List Track) (seen : List String),
      lineLoop cfg ts seen = ((survivors cfg ts seen).map (trackBlock cfg)).flatten := by
  intro ts
  induction ts with
  | nil => intro seen; rfl
  | cons t ts ih =>
    intro seen
    by_cases hrel : relOf cfg t = ""
    · simp [lineLoop, survivors, hrel, ih]
    · simp only [lineLoop, survivors, hrel, if_neg]
      cases hs : seen.contains (outOf cfg t) with
      | true => simp [hs, ih]
      | false => simp [hs, ih, trackBlock]

theorem loopPaths_survivors (cfg : Config) :
    ∀ (ts : List Track) (seen : List String),
      loopPaths cfg ts seen = (survivors cfg ts seen).map (outOf cfg) := by
  intro ts
  induction ts with
  | nil => intro seen; rfl
  | cons t ts ih =>
    intro seen
    by_cases hrel : relOf cfg t = ""
    · simp [loopPaths, survivors, hrel, ih]
    · simp only [loopPaths, survivors, hrel, if_neg]
      cases hs : seen.contains (outOf cfg t) with
      | true => simp [hs, ih]
      | false => simp [hs, ih]

/-! ### C8: separator invariants of the resolver and the decoder -/

theorem splitSlashCore_chars (cs : List Char) :
    (∀ c ∈ (splitSlashCore cs).1, c ∈ cs ∧ c ≠ '/')
    ∧ (∀ piece ∈ (splitSlashCore cs).2, ∀ c ∈ piece, c ∈ cs ∧ c ≠ '/') := by
  induction cs with
  | nil => simp [splitSlashCore]
  | cons a as ih =>
    by_cases ha : a = '/'
    · simp only [splitSlashCore, ha, if_pos]
      constructor
      · simp
      · intro piece hp c hc
        rcases List.mem_cons.mp hp with rfl | hp
        · have h := ih.1 c hc
          exact ⟨List.mem_cons_of_mem _ h.1, h.2⟩
        · have h := ih.2 piece hp c hc
          exact ⟨List.mem_cons_of_mem _ h.1, h.2⟩
    · simp only [splitSlashCore, if_neg ha]
      constructor
      · intro c hc
        rcases List.mem_cons.mp hc with rfl | hc
        · exact ⟨List.mem_cons_self _ _, ha⟩
        · have h := ih.1 c hc
          exact ⟨List.mem_cons_of_mem _ h.1, h.2⟩
      · intro piece hp c hc
        have h := ih.2 piece hp c hc
        exact ⟨List.mem_cons_of_mem _ h.1, h.2⟩

theorem splitParts_facts (path : String) :
    ∀ p ∈ splitParts path, p ≠ "" ∧ ∀ c ∈ p.data, c ∈ path.data ∧ c ≠ '/' := by
  intro p hp
  simp only [splitParts, splitSlash, List.mem_filter, List.mem_map, List.mem_cons] at hp
  obtain ⟨⟨piece, hpiece, rfl⟩, hfilt⟩ := hp
  constructor
  · intro hempty
    rw [hempty] at hfilt
    simp at hfilt
  · intro c hc
    rcases hpiece with rfl | hpiece
    · exact (splitSlashCore_chars path.data).1 c hc
    · exact (splitSlashCore_chars path.data).2 piece hpiece c hc

theorem joinSlash_chars (l : List String) :
    ∀ c ∈ (joinSlash l).data, c = '/' ∨ ∃ p ∈ l, c ∈ p.data := by
  induction l with
  | nil =>
    intro c hc
    exact absurd hc (List.not_mem_nil c)
  | cons p rest ih =>
    cases rest with
    | nil =>
      intro c hc
      exact Or.inr ⟨p, by simp, hc⟩
    | cons q rest' =>
      intro c hc
      have hdata : (joinSlash (p :: q :: rest')).data
          = p.data ++ '/' :: (joinSlash (q :: rest')).data := by
        show (p ++ "/" ++ joinSlash (q :: rest')).data = _
        simp [String.data_append]
      rw [hdata] at hc
      rcases List.mem_append.mp hc with hc | hc
      · exact Or.inr ⟨p, by simp, hc⟩
      · rcases List.mem_cons.mp hc with rfl | hc
        · exact Or.inl rfl
        · rcases ih c hc with h | ⟨r, hr, hcr⟩
          · exact Or.inl h
          · exact Or.inr ⟨r, List.mem_cons_of_mem _ hr, hcr⟩

theorem joinSlash_head (l : List String) (hne : ∀ p ∈ l, p ≠ "") :
    ∀ c, (joinSlash l).data.head? = some c → ∃ p ∈ l, p.data.head? = some c := by
  induction l with
  | nil =>
    intro c hc
    exact nomatch hc
  | cons p rest ih =>
    cases rest with
    | nil =>
      intro c hc
      exact ⟨p, by simp, hc⟩
    | cons q rest' =>
      intro c hc
      have hp : p ≠ "" := hne p (by simp)
      have hdata : (joinSlash (p :: q :: rest')).data
          = p.data ++ '/' :: (joinSlash (q :: rest')).data := by
        show (p ++ "/" ++ joinSlash (q :: rest')).data = _
        simp [String.data_append]
      rw [hdata] at hc
      cases hpd : p.data with
      | nil => exact absurd (String.ext hpd) hp
      | cons d ds =>
        refine ⟨p, by simp, ?_⟩
        rw [hpd] at hc ⊢
        simpa using hc

theorem homeFallback_sub (parts : List String) :
    ∃ sub : List String, (∀ p ∈ sub, p ∈ parts) ∧ homeFallback parts = joinSlash sub := by
  unfold homeFallback
  have hsub : ∀ p ∈ (if (2 < parts.length
        && (parts.head? == some "home" || parts.head? == some "Users")) = true
      then parts.drop 2 else parts), p ∈ parts := by
    intro p hp
    split at hp
    · exact List.drop_subset _ _ hp
    · exact hp
  generalize hgen : (if (2 < parts.length
      && (parts.head? == some "home" || parts.head? == some "Users")) = true
    then parts.drop 2 else parts) = parts2 at hsub ⊢
  by_cases h3 : 3 ≤ parts2.length
  · exact ⟨parts2.drop (parts2.length - 3),
      fun p hp => hsub p (List.drop_subset _ _ hp), by rw [if_pos h3]⟩
  · by_cases h2 : parts2.length = 2
    · exact ⟨parts2, hsub, by rw [if_neg h3, if_pos h2]⟩
    · rw [if_neg h3, if_neg h2]
      cases hgl : parts2.getLast? with
      | none => exact ⟨[], by simp, rfl⟩
      | some x =>
        have hx : x ∈ parts2 := List.mem_of_getLast?_eq_some hgl
        refine ⟨[x], ?_, rfl⟩
        intro p hp
        rw [List.mem_singleton.mp hp]
        exact hsub x hx

theorem stripCore_sub (anchors parts : List String) :
    ∃ sub : List String, (∀ p ∈ sub, p ∈ parts) ∧ stripCore anchors parts = joinSlash sub := by
  cases hfmi : firstMatchIdx anchors parts with
  | none =>
    have hnone : stripCore anchors parts = homeFallback parts := by
      simp [stripCore, hfmi]
    rw [hnone]
    exact homeFallback_sub parts
  | some i =>
    by_cases he : parts.drop (i + 1) = []
    · have hout := (stripCore_anchor_eq anchors parts i hfmi).2 he
      have hmem : stripCore anchors parts ∈ parts := List.getElem?_mem hout
      refine ⟨[stripCore anchors parts], ?_, rfl⟩
      intro p hp
      rw [List.mem_singleton.mp hp]
      exact hmem
    · exact ⟨parts.drop (i + 1), fun p hp => List.drop_subset _ _ hp,
        (stripCore_anchor_eq anchors parts i hfmi).1 he⟩

/-- C8: on a backslash-free decoded path the resolver's output contains no
backslash and never starts with a slash; and the decoder's output never
contains a backslash at all (every backslash of its input becomes a
forward slash), so emitted path lines use forward slashes only. -/
theorem forward_slash_invariants :
    (∀ (path : String) (anchors : List String), '\\' ∉ path.data →
        ('\\' ∉ (strip_to_rel path anchors).data
         ∧ (strip_to_rel path anchors).data.head? ≠ some '/'))
    ∧ (∀ uri : String, '\\' ∉ (uri_to_path uri).data) := by
  constructor
  · intro path anchors hpath
    obtain ⟨sub, hsubmem, heq⟩ := stripCore_sub anchors (splitParts path)
    have heq' : strip_to_rel path anchors = joinSlash sub := heq
    constructor
    · rw [heq']
      intro hbs
      rcases joinSlash_chars sub _ hbs with h | ⟨p, hp, hcp⟩
      · exact absurd h (by decide)
      · have hfacts := (splitParts_facts path _ (hsubmem p hp)).2 _ hcp
        exact hpath hfacts.1
    · rw [heq']
      intro hhead
      have hne : ∀ p ∈ sub, p ≠ "" := fun p hp =>
        (splitParts_facts path _ (hsubmem p hp)).1
      obtain ⟨p, hp, hphead⟩ := joinSlash_head sub hne '/' hhead
      have hmemp : '/' ∈ p.data := by
        cases hpd : p.data with
        | nil => rw [hpd] at hphead; exact nomatch hphead
        | cons d ds =>
          rw [hpd] at hphead
          simp only [List.head?_cons, Option.some_inj] at hphead
          rw [hphead]
          exact List.mem_cons_self _ _
      exact ((splitParts_facts path _ (hsubmem p hp)).2 _ hmemp).2 rfl
  · intro uri hbs
    simp only [uri_to_path] at hbs
    rcases List.mem_map.mp hbs with ⟨c, _, hc⟩
    by_cases hcb : c = '\\'
    · rw [if_pos hcb] at hc
      exact absurd hc (by decide)
    · rw [if_neg hcb] at hc
      exact hcb hc

/-- C8 witness: a concrete backslash-free path. -/
theorem forward_slash_invariants_witness :
    '\\' ∉ (strip_to_rel "/home/u/x" []).data
    ∧ (strip_to_rel "/home/u/x" []).data.head? ≠ some '/' :=
  forward_slash_invariants.1 "/home/u/x" [] (by decide)

/-- C5: the emitted path lines are the keep-first deduplication of the
candidate final output paths (so each final path appears at most once, at
the position of its first occurrence), and the whole output of the loop is
the concatenation of one block per surviving track — a skipped duplicate
contributes no lines at all, `#EXTINF` included. -/
theorem output_dedup (tracks : List Track) (cfg : Config) :
    loopPaths cfg tracks [] = dedupFirst (finalPaths cfg tracks)
    ∧ (loopPaths cfg tracks []).Nodup
    ∧ lineLoop cfg tracks [] = ((survivors cfg tracks []).map (trackBlock cfg)).flatten
    ∧ loopPaths cfg tracks [] = (survivors cfg tracks []).map (outOf cfg) :=
  ⟨loopPaths_eq_dedup cfg tracks [],
   by rw [loopPaths_eq_dedup]; exact dedupFirstAux_nodup _ _,
   lineLoop_blocks cfg tracks [],
   loopPaths_survivors cfg tracks []⟩

/-! ### C9: the end-to-end single-track example -/

/-- C9 counterexample: with no creator and no title the display falls back
to the basename of the relative path, so the metadata line of the spec's
single-track example is not `#EXTINF:-1,Artist/Song.mp3`. -/
theorem end_to_end_example_not_as_claimed :
    outputLines [mkTrack "file:///home/alice/Music/Artist/Song.mp3" "" "" ""]
      { anchors := ["Music"], no_extm3u := false, gonic_base := none }
    ≠ ["#EXTM3U", "#EXTINF:-1,Artist/Song.mp3", "Artist/Song.mp3"] := by
  decide

/-- C9 amended: the spec's single-track example in Extended mode yields
`#EXTM3U`, then `#EXTINF:-1,Song.mp3` (the display title is the basename
of the relative path because title and creator are absent), then the path
line `Artist/Song.mp3`. -/
theorem end_to_end_example :
    outputLines [mkTrack "file:///home/alice/Music/Artist/Song.mp3" "" "" ""]
      { anchors := ["Music"], no_extm3u := false, gonic_base := none }
    = ["#EXTM3U", "#EXTINF:-1,Song.mp3", "Artist/Song.mp3"] := by
  decide

end XspfToM3u
